import Mathlib

/-!
Shallow embedding of the Sudoku core of this repository:
backtracking solver (`shudo/extend-resolve/solver.py` and the shuffled
variant in `shudo/extend/data_gen.py`), puzzle generation
(`generate_full_board`, `remove_cells`), token round-trip
(`board_to_tokens` / `tokens_to_board` in `shudo/extend/model.py`),
the constrained sequence decoder (`generate_with_constraints`), and the
prediction pipeline (`predict_with_model` in `shudo/extend-resolve/test.py`).

A Python 9x9 board `List[List[int]]` is modelled as a total function
`Nat → Nat → Nat`; only the cells with both indices `< 9` are ever read or
written by the embedded operations, exactly as in the source.  In-place
mutation is modelled by explicit state passing: every operation that
mutates its board returns the resulting board.  The `random.shuffle` of
the digit candidates in `data_gen.solve_backtrack` is modelled by a
stream `orders : Nat → List Nat` of candidate lists, consumed one entry
per recursive call in depth-first order; the ascending solver of
`solver.py` is the instance where every entry is `[1,...,9]`.  Python's
unbounded recursion is modelled with an explicit fuel argument; fuel `82`
exceeds the maximal recursion depth (at most one level per empty cell,
and a 9x9 board has at most 81 empty cells), which the completeness
theorem below makes precise.
-/

set_option synthInstance.maxSize 4096

def Board : Type := Nat → Nat → Nat

/-- Board built from a 9x9 list-of-lists literal, out-of-range cells read 0. -/
def mkBoard (l : List (List Nat)) : Board :=
  fun r c => (l.getD r []).getD c 0

/-- Model of the in-place assignment `board[r][c] = v`. -/
def setCell (b : Board) (r c v : Nat) : Board :=
  fun r' c' => if r' = r ∧ c' = c then v else b r' c'

/-- The 81 cell coordinates in row-major order, as scanned by `find_empty`. -/
def allPos : List (Nat × Nat) :=
  (List.range 9).flatMap (fun r => (List.range 9).map (fun c => (r, c)))

/-- `find_empty(board)`: first cell equal to 0 in row-major order, if any. -/
def find_empty (board : Board) : Option (Nat × Nat) :=
  allPos.find? (fun p => board p.1 p.2 == 0)

/-- `is_valid(board, row, col, n)`: `n` occurs nowhere in the row, the column,
or the containing 3x3 box (`range(br, br + 3)` is `List.range' br 3`).  The
source's three early `return False` branches are the three short-circuited
conjuncts. -/
def is_valid (board : Board) (row col n : Nat) : Bool :=
  !(List.range 9).any (fun x => board row x == n) &&
    (!(List.range 9).any (fun x => board x col == n) &&
      !(List.range' (row / 3 * 3) 3).any (fun r =>
        (List.range' (col / 3 * 3) 3).any (fun c => board r c == n)))

/-- One step of the `for n in nums:` loop body of `solve_backtrack`,
recursing over the remaining candidate list.  `solveF` is the recursive
solver call (at one fuel level lower); the board returned by a failed
recursive call is threaded onward after the undo `board[r][c] = 0`,
exactly as the Python loop keeps operating on the same mutated list. -/
def tryDigits (solveF : Nat → Board → Bool × Board × Nat) (r c : Nat) :
    List Nat → Nat → Board → Bool × Board × Nat
  | [], k, b => (false, b, k)
  | n :: rest, k, b =>
    if is_valid b r c n then
      let res := solveF k (setCell b r c n)
      if res.1 then res
      else tryDigits solveF r c rest res.2.2 (setCell res.2.1 r c 0)
    else tryDigits solveF r c rest k b

/-- `solve_backtrack(board)` with an explicit candidate-order stream and fuel.
The stream index `k` counts the recursive calls that reached the digit loop,
in depth-first order; `orders k` is the candidate list that call iterates
over (`random.shuffle` output in `data_gen.py`, `range(1, 10)` in
`solver.py`). -/
def solveAux (orders : Nat → List Nat) : Nat → Nat → Board → Bool × Board × Nat
  | 0, k, b => (false, b, k)
  | fuel + 1, k, b =>
    match find_empty b with
    | none => (true, b, k)
    | some (r, c) => tryDigits (solveAux orders fuel) r c (orders k) (k + 1) b

/-- The ascending candidate list `list(range(1, 10))`. -/
def ascList : List Nat := [1, 2, 3, 4, 5, 6, 7, 8, 9]

/-- `data_gen.solve_backtrack`: shuffled-order backtracking solver; returns the
Python return value together with the final state of the mutated board. -/
def solve_backtrackR (orders : Nat → List Nat) (board : Board) : Bool × Board :=
  let res := solveAux orders 82 0 board
  (res.1, res.2.1)

/-- `solver.solve_backtrack`: the deterministic ascending-order solver of
`extend-resolve/solver.py` (`for n in range(1, 10)`). -/
def solve_backtrack (board : Board) : Bool × Board :=
  solve_backtrackR (fun _ => ascList) board

/-- The all-zero board `[[0]*9]*9`. -/
def zeroBoard : Board := fun _ _ => 0

/-- `generate_full_board()`: run the shuffled solver on the all-zero board and
return the board (the boolean result is dropped by the source). -/
def generate_full_board (orders : Nat → List Nat) : Board :=
  (solve_backtrackR orders zeroBoard).2

/-- The loop of `remove_cells`: walk the shuffled position list, zeroing
nonzero cells until `removal_count` cells have been cleared. -/
def removeAux (removal_count : Nat) : List (Nat × Nat) → Nat → Board → Board
  | [], _, puzzle => puzzle
  | (r, c) :: ps, count, puzzle =>
    if removal_count ≤ count then puzzle
    else if puzzle r c ≠ 0 then removeAux removal_count ps (count + 1) (setCell puzzle r c 0)
    else removeAux removal_count ps count puzzle

/-- `remove_cells(board, removal_count)` with the shuffled coordinate list as
an explicit parameter (`positions` is `random.shuffle` applied to all 81
coordinates in the source). -/
def remove_cells (board : Board) (removal_count : Nat) (positions : List (Nat × Nat)) : Board :=
  removeAux removal_count positions 0 board

/-! ### Specification-side predicates on grids -/

/-- The grid has no empty cell (every cell in the 9x9 range is nonzero). -/
def completeGrid (b : Board) : Prop :=
  ∀ r, r < 9 → ∀ c, c < 9 → b r c ≠ 0

/-- No row, column, or 3x3 box contains the same nonzero digit twice. -/
def validGrid (b : Board) : Prop :=
  (∀ r, r < 9 → ∀ c1, c1 < 9 → ∀ c2, c2 < 9 → c1 ≠ c2 → b r c1 ≠ 0 → b r c1 ≠ b r c2) ∧
  (∀ c, c < 9 → ∀ r1, r1 < 9 → ∀ r2, r2 < 9 → r1 ≠ r2 → b r1 c ≠ 0 → b r1 c ≠ b r2 c) ∧
  (∀ r1, r1 < 9 → ∀ c1, c1 < 9 → ∀ r2, r2 < 9 → ∀ c2, c2 < 9 →
    (r1, c1) ≠ (r2, c2) → r1 / 3 = r2 / 3 → c1 / 3 = c2 / 3 →
    b r1 c1 ≠ 0 → b r1 c1 ≠ b r2 c2)

/-- `full` agrees with `puzzle` on every nonzero cell of `puzzle`. -/
def boardExtends (puzzle full : Board) : Prop :=
  ∀ r, r < 9 → ∀ c, c < 9 → puzzle r c ≠ 0 → full r c = puzzle r c

/-- Number of nonzero cells of the 9x9 range. -/
def nonzeroCount (b : Board) : Nat :=
  ((Finset.range 9 ×ˢ Finset.range 9).filter (fun p => b p.1 p.2 ≠ 0)).card

/-- Number of zero cells of the 9x9 range. -/
def zeroCount (b : Board) : Nat :=
  ((Finset.range 9 ×ˢ Finset.range 9).filter (fun p => b p.1 p.2 = 0)).card

instance (b : Board) : Decidable (completeGrid b) := by
  unfold completeGrid; infer_instance

instance (b : Board) : Decidable (validGrid b) := by
  unfold validGrid; infer_instance

instance (p f : Board) : Decidable (boardExtends p f) := by
  unfold boardExtends; infer_instance

/-- The classic solved grid from the specification's concrete scenario. -/
def classicFull : Board := mkBoard
  [[5, 3, 4, 6, 7, 8, 9, 1, 2],
   [6, 7, 2, 1, 9, 5, 3, 4, 8],
   [1, 9, 8, 3, 4, 2, 5, 6, 7],
   [8, 5, 9, 7, 6, 1, 4, 2, 3],
   [4, 2, 6, 8, 5, 3, 7, 9, 1],
   [7, 1, 3, 9, 2, 4, 8, 5, 6],
   [9, 6, 1, 5, 3, 7, 2, 8, 4],
   [2, 8, 7, 4, 1, 9, 6, 3, 5],
   [3, 4, 5, 2, 8, 6, 1, 7, 9]]

/-- A board whose every cell is 1: complete but violating every row. -/
def allOnes : Board := fun _ _ => 1

/-- A puzzle whose single empty cell (0,0) admits no digit: its row holds
1..8 and its column holds 9. -/
def bpBlocked : Board := mkBoard
  [[0, 1, 2, 3, 4, 5, 6, 7, 8],
   [9, 0, 0, 0, 0, 0, 0, 0, 0],
   [0, 0, 0, 0, 0, 0, 0, 0, 0],
   [0, 0, 0, 0, 0, 0, 0, 0, 0],
   [0, 0, 0, 0, 0, 0, 0, 0, 0],
   [0, 0, 0, 0, 0, 0, 0, 0, 0],
   [0, 0, 0, 0, 0, 0, 0, 0, 0],
   [0, 0, 0, 0, 0, 0, 0, 0, 0],
   [0, 0, 0, 0, 0, 0, 0, 0, 0]]

/-- The classic solved grid with cell (0,1) overwritten by 5: a complete board
whose row 0 carries the clue 5 twice. -/
def dupRowBoard : Board := setCell classicFull 0 1 5

/-! ### The constrained sequence decoder (`shudo/extend/model.py`) and the
prediction pipeline (`shudo/extend-resolve/test.py`) -/

/-- The logit-source collaborator: given the 81 puzzle tokens and the decoder
token sequence produced so far (starting with the BOS token 0), a score for
each of the 10 digit tokens of the next position.  This is the role played by
`SudokuTransformer.forward`'s last-position logits; scores are modelled as
rationals, with the `-inf` produced by masking modelled separately as `none`. -/
def LogitSource : Type := List Nat → List Nat → Nat → ℚ

/-- The constant-zero logit source (used for concrete inputs). -/
def zls : LogitSource := fun _ _ _ => 0

/-- `_idx_to_rc(idx)`. -/
def idx_to_rc (idx : Nat) : Nat × Nat := (idx / 9, idx % 9)

/-- `given_vals[r][c]`: the puzzle token at row-major position `r*9 + c`. -/
def gv (src : List Nat) (r c : Nat) : Nat := src.getD (r * 9 + c) 0

/-- `givens_row[r][d]`: some cell of row `r` of the puzzle holds the (nonzero)
digit `d`. -/
def givens_row (src : List Nat) (r d : Nat) : Bool :=
  decide (0 < d) && (List.range 9).any (fun c => gv src r c == d)

/-- `givens_col[c][d]`. -/
def givens_col (src : List Nat) (c d : Nat) : Bool :=
  decide (0 < d) && (List.range 9).any (fun r => gv src r c == d)

/-- `givens_box[bi][d]`. -/
def givens_box (src : List Nat) (bi d : Nat) : Bool :=
  decide (0 < d) && (List.range 9).any (fun r => (List.range 9).any (fun c =>
    decide (r / 3 * 3 + c / 3 = bi) && (gv src r c == d)))

/-- Strict order on masked scores; `none` is the `-inf` written by
`masked_fill`. -/
def scoreLt : Option ℚ → Option ℚ → Bool
  | none, none => false
  | none, some _ => true
  | some _, none => false
  | some a, some b => decide (a < b)

/-- `torch.argmax` over the 10 masked scores: the first index attaining the
maximum (later indices replace the running best only on strictly greater
score). -/
def argmaxFirst (f : Nat → Option ℚ) : Nat :=
  (List.range 10).foldl (fun best d => if scoreLt (f best) (f d) then d else best) 0

/-- `_allowed_digits_for_cell`: if the cell is a clue, only the clue token is
allowed; otherwise the digits 1..9 not used in the row, column, or box by the
puzzle clues or by the digits committed so far.  Token 0 is never allowed. -/
def allowed_digits_for_cell (gRow gCol gBox pRow pCol pBox : Nat → Nat → Bool)
    (r c given_val : Nat) : Nat → Bool :=
  if 0 < given_val then fun d => d == given_val
  else fun d =>
    decide (1 ≤ d) && (decide (d ≤ 9) &&
      !(gRow r d || pRow r d || gCol c d || pCol c d ||
        gBox (r / 3 * 3 + c / 3) d || pBox (r / 3 * 3 + c / 3) d))

/-- Masking plus selection: disallowed tokens get `-inf` (`none`), then the
argmax is taken. -/
def selectToken (scores : Nat → ℚ) (mask : Nat → Bool) : Nat :=
  argmaxFirst (fun d => if mask d then some (scores d) else none)

/-- The mutable state of the decode loop of `generate_with_constraints`:
the `pred_row`/`pred_col`/`pred_box` bitsets, the flat output board
`pred_board`, and the running token sequence `ys`. -/
structure DecState where
  predRow : Nat → Nat → Bool
  predCol : Nat → Nat → Bool
  predBox : Nat → Nat → Bool
  out : Nat → Nat
  ys : List Nat

/-- One iteration of the decode loop at position `t`. -/
def decodeStep (ls : LogitSource) (src : List Nat) (t : Nat) (s : DecState) : DecState :=
  let r := (idx_to_rc t).1
  let c := (idx_to_rc t).2
  let mask := allowed_digits_for_cell (givens_row src) (givens_col src) (givens_box src)
    s.predRow s.predCol s.predBox r c (gv src r c)
  let v := selectToken (ls src s.ys) mask
  { predRow := fun r' d => if 0 < v ∧ r' = r ∧ d = v then true else s.predRow r' d
    predCol := fun c' d => if 0 < v ∧ c' = c ∧ d = v then true else s.predCol c' d
    predBox := fun b' d => if 0 < v ∧ b' = r / 3 * 3 + c / 3 ∧ d = v then true
      else s.predBox b' d
    out := fun i => if i = t then v else s.out i
    ys := s.ys ++ [v] }

/-- Decoder state after `t` iterations; `ys` starts as the single BOS token 0
and the bitsets and output board start empty. -/
def decodeSteps (ls : LogitSource) (src : List Nat) : Nat → DecState
  | 0 => ⟨fun _ _ => false, fun _ _ => false, fun _ _ => false, fun _ => 0, [0]⟩
  | t + 1 => decodeStep ls src t (decodeSteps ls src t)

/-- The token selected at step `t` (mask construction plus argmax), written out
with `r = t / 9`, `c = t % 9`; `decodeStep` commits exactly this token. -/
def decodeSel (ls : LogitSource) (src : List Nat) (t : Nat) (s : DecState) : Nat :=
  selectToken (ls src s.ys)
    (allowed_digits_for_cell (givens_row src) (givens_col src) (givens_box src)
      s.predRow s.predCol s.predBox (t / 9) (t % 9) (gv src (t / 9) (t % 9)))

/-- `generate_with_constraints(src, max_len=81)`: run the 81 decode steps and
return `ys[:, 1:]`. -/
def generate_with_constraints (ls : LogitSource) (src : List Nat) : List Nat :=
  (decodeSteps ls src 81).ys.drop 1

/-- `board_to_tokens(board)`: row-major flattening into 81 tokens. -/
def board_to_tokens (board : Board) : List Nat :=
  (List.range 9).flatMap (fun r => (List.range 9).map (fun c => board r c))

/-- `tokens_to_board(tokens)`: the 9x9 board whose cell `(r, c)` holds the token
at position `r*9 + c`; cells outside the 9x9 range model the absent entries of
the Python 9x9 list. -/
def tokens_to_board (tokens : List Nat) : Board :=
  fun r c => if r < 9 ∧ c < 9 then tokens.getD (r * 9 + c) 0 else 0

/-- The clue re-assertion loop of `predict_with_model`: every nonzero puzzle
cell overwrites the decoded board. -/
def reassert (board pred : Board) : Board :=
  fun r c => if r < 9 ∧ c < 9 ∧ board r c ≠ 0 then board r c else pred r c

/-- `predict_with_model` (with `use_backtrack=True`) with the boolean result of
the final `solve_backtrack` call exposed alongside the returned board. -/
def predictFull (ls : LogitSource) (board : Board) : Bool × Board :=
  solve_backtrack
    (reassert board (tokens_to_board (generate_with_constraints ls (board_to_tokens board))))

/-- `predict_with_model` as written: it returns only the (mutated) board and
drops the boolean returned by `solve_backtrack`. -/
def predict_with_model (ls : LogitSource) (board : Board) : Board :=
  (predictFull ls board).2

/-! ### Cell update and scanning lemmas -/

theorem setCell_same (b : Board) (r c v : Nat) : setCell b r c v r c = v := by
  simp [setCell]

theorem setCell_other (b : Board) (r c v r' c' : Nat) (h : ¬(r' = r ∧ c' = c)) :
    setCell b r c v r' c' = b r' c' := by
  simp [setCell, h]

theorem setCell_same' {b : Board} {r c v r' c' : Nat} (h : r' = r ∧ c' = c) :
    setCell b r c v r' c' = v := by
  simp [setCell, h]

theorem setCell_undo (b : Board) (r c n : Nat) (h : b r c = 0) :
    setCell (setCell b r c n) r c 0 = b := by
  funext r' c'
  by_cases hrc : r' = r ∧ c' = c
  · obtain ⟨rfl, rfl⟩ := hrc
    simp [setCell, h]
  · simp [setCell, hrc]

theorem mem_allPos (p : Nat × Nat) : p ∈ allPos ↔ p.1 < 9 ∧ p.2 < 9 := by
  obtain ⟨r, c⟩ := p
  simp [allPos, List.mem_flatMap, List.mem_map, List.mem_range]

theorem find_empty_eq_none_iff (b : Board) :
    find_empty b = none ↔ ∀ r, r < 9 → ∀ c, c < 9 → b r c ≠ 0 := by
  constructor
  · intro h r hr c hc
    have := (List.find?_eq_none.mp h) (r, c) (by simp [mem_allPos, hr, hc])
    simpa using this
  · intro h
    refine List.find?_eq_none.mpr (fun p hp => ?_)
    have hb := (mem_allPos p).mp hp
    simpa using h p.1 hb.1 p.2 hb.2

theorem find_empty_some (b : Board) (r c : Nat) (h : find_empty b = some (r, c)) :
    b r c = 0 ∧ r < 9 ∧ c < 9 := by
  have h1 := List.find?_some h
  have h2 := (mem_allPos _).mp (List.mem_of_find?_eq_some h)
  simp only [beq_iff_eq] at h1
  exact ⟨h1, h2⟩

/-! ### Characterization of `is_valid` -/

theorem is_valid_iff (b : Board) (row col n : Nat) :
    is_valid b row col n = true ↔
      (∀ x, x < 9 → b row x ≠ n) ∧ (∀ x, x < 9 → b x col ≠ n) ∧
      (∀ x y, row / 3 * 3 ≤ x → x < row / 3 * 3 + 3 →
        col / 3 * 3 ≤ y → y < col / 3 * 3 + 3 → b x y ≠ n) := by
  simp only [is_valid, Bool.and_eq_true, Bool.not_eq_true', List.any_eq_false,
    List.mem_range, List.mem_range'_1, beq_iff_eq, List.any_eq_true, not_exists, not_and,
    beq_eq_false_iff_ne]
  constructor
  · rintro ⟨h1, h2, h3⟩
    refine ⟨h1, h2, fun x y hx1 hx2 hy1 hy2 => ?_⟩
    exact h3 x ⟨hx1, hx2⟩ y ⟨hy1, hy2⟩
  · rintro ⟨h1, h2, h3⟩
    refine ⟨h1, h2, fun x hx y hy => ?_⟩
    exact h3 x y hx.1 hx.2 hy.1 hy.2

theorem is_valid_nonzero (b : Board) (r c n : Nat) (h0 : b r c = 0) (hc : c < 9)
    (hv : is_valid b r c n = true) : n ≠ 0 := by
  intro hn
  exact ((is_valid_iff b r c n).mp hv).1 c hc (hn ▸ h0)

/-! ### The failure-undo invariant of the backtracking search -/

theorem tryDigits_restore (solveF : Nat → Board → Bool × Board × Nat)
    (hS : ∀ k b, (solveF k b).1 = false → (solveF k b).2.1 = b)
    (r c : Nat) (b : Board) (h0 : b r c = 0) :
    ∀ ns k, (tryDigits solveF r c ns k b).1 = false →
      (tryDigits solveF r c ns k b).2.1 = b := by
  intro ns
  induction ns with
  | nil => intro k _; rfl
  | cons n rest ih =>
    intro k
    by_cases hv : is_valid b r c n = true
    · simp only [tryDigits, hv, if_true]
      by_cases hres : (solveF k (setCell b r c n)).1 = true
      · simp [hres]
      · have hres' : (solveF k (setCell b r c n)).1 = false := by
          simpa using hres
        have hrw : setCell (solveF k (setCell b r c n)).2.1 r c 0 = b := by
          rw [hS _ _ hres']
          exact setCell_undo b r c n h0
        simp only [hres', if_false, Bool.false_eq_true, hrw]
        exact ih _
    · have hv' : is_valid b r c n = false := by simpa using hv
      simp only [tryDigits, hv', if_false, Bool.false_eq_true]
      exact ih _

theorem solveAux_restore (orders : Nat → List Nat) :
    ∀ fuel k b, (solveAux orders fuel k b).1 = false →
      (solveAux orders fuel k b).2.1 = b := by
  intro fuel
  induction fuel with
  | zero => intro k b _; rfl
  | succ fuel ih =>
    intro k b
    match hfe : find_empty b with
    | none => simp [solveAux, hfe]
    | some (r, c) =>
      have h0 := (find_empty_some b r c hfe).1
      simp only [solveAux, hfe]
      exact tryDigits_restore _ ih r c b h0 _ _

/-! ### Originally-nonzero cells are never overwritten -/

theorem tryDigits_keep (solveF : Nat → Board → Bool × Board × Nat)
    (hS : ∀ k b, (solveF k b).1 = false → (solveF k b).2.1 = b)
    (hK : ∀ k b r' c', b r' c' ≠ 0 → (solveF k b).2.1 r' c' = b r' c')
    (r c : Nat) (b : Board) (h0 : b r c = 0) :
    ∀ ns k r' c', b r' c' ≠ 0 →
      (tryDigits solveF r c ns k b).2.1 r' c' = b r' c' := by
  intro ns
  induction ns with
  | nil => intro k r' c' _; rfl
  | cons n rest ih =>
    intro k r' c' hnz
    have hne : ¬(r' = r ∧ c' = c) := by
      rintro ⟨rfl, rfl⟩; exact hnz h0
    by_cases hv : is_valid b r c n = true
    · simp only [tryDigits, hv, if_true]
      by_cases hres : (solveF k (setCell b r c n)).1 = true
      · simp only [hres, if_true]
        have h1 : setCell b r c n r' c' ≠ 0 := by
          rw [setCell_other b r c n r' c' hne]; exact hnz
        rw [hK _ _ _ _ h1, setCell_other b r c n r' c' hne]
      · have hres' : (solveF k (setCell b r c n)).1 = false := by
          simpa using hres
        have hrw : setCell (solveF k (setCell b r c n)).2.1 r c 0 = b := by
          rw [hS _ _ hres']
          exact setCell_undo b r c n h0
        simp only [hres', if_false, Bool.false_eq_true, hrw]
        exact ih _ _ _ hnz
    · have hv' : is_valid b r c n = false := by simpa using hv
      simp only [tryDigits, hv', if_false, Bool.false_eq_true]
      exact ih _ _ _ hnz

theorem solveAux_keep (orders : Nat → List Nat) :
    ∀ fuel k b r' c', b r' c' ≠ 0 →
      (solveAux orders fuel k b).2.1 r' c' = b r' c' := by
  intro fuel
  induction fuel with
  | zero => intro k b r' c' _; rfl
  | succ fuel ih =>
    intro k b r' c' hnz
    match hfe : find_empty b with
    | none => simp [solveAux, hfe]
    | some (r, c) =>
      have h0 := (find_empty_some b r c hfe).1
      simp only [solveAux, hfe]
      exact tryDigits_keep _ (solveAux_restore orders fuel) ih r c b h0 _ _ _ _ hnz

/-! ### A successful search leaves no empty cell -/

theorem tryDigits_filled (solveF : Nat → Board → Bool × Board × Nat)
    (hS : ∀ k b, (solveF k b).1 = false → (solveF k b).2.1 = b)
    (hF : ∀ k b, (solveF k b).1 = true → find_empty (solveF k b).2.1 = none)
    (r c : Nat) (b : Board) (h0 : b r c = 0) :
    ∀ ns k, (tryDigits solveF r c ns k b).1 = true →
      find_empty (tryDigits solveF r c ns k b).2.1 = none := by
  intro ns
  induction ns with
  | nil => intro k h; cases h
  | cons n rest ih =>
    intro k
    by_cases hv : is_valid b r c n = true
    · simp only [tryDigits, hv, if_true]
      by_cases hres : (solveF k (setCell b r c n)).1 = true
      · simp only [hres, if_true]
        intro _
        exact hF _ _ hres
      · have hres' : (solveF k (setCell b r c n)).1 = false := by
          simpa using hres
        have hrw : setCell (solveF k (setCell b r c n)).2.1 r c 0 = b := by
          rw [hS _ _ hres']
          exact setCell_undo b r c n h0
        simp only [hres', if_false, Bool.false_eq_true, hrw]
        exact ih _
    · have hv' : is_valid b r c n = false := by simpa using hv
      simp only [tryDigits, hv', if_false, Bool.false_eq_true]
      exact ih _

theorem solveAux_filled (orders : Nat → List Nat) :
    ∀ fuel k b, (solveAux orders fuel k b).1 = true →
      find_empty (solveAux orders fuel k b).2.1 = none := by
  intro fuel
  induction fuel with
  | zero => intro k b h; cases h
  | succ fuel ih =>
    intro k b
    match hfe : find_empty b with
    | none =>
      intro _
      simp only [solveAux, hfe]
    | some (r, c) =>
      have h0 := (find_empty_some b r c hfe).1
      simp only [solveAux, hfe]
      exact tryDigits_filled _ (solveAux_restore orders fuel) ih r c b h0 (orders k) (k + 1)

/-! ### Placements that pass `is_valid` preserve grid validity -/

theorem validGrid_setCell (b : Board) (r c n : Nat) (hval : validGrid b)
    (hiv : is_valid b r c n = true) (_h0 : b r c = 0) (_hn : n ≠ 0)
    (_hr : r < 9) (_hc : c < 9) : validGrid (setCell b r c n) := by
  obtain ⟨A, B, C⟩ := hval
  obtain ⟨VR, VC, VB⟩ := (is_valid_iff b r c n).mp hiv
  refine ⟨?_, ?_, ?_⟩
  · intro r0 hr0 c1 hc1 c2 hc2 hne hnz heq
    by_cases e1 : r0 = r ∧ c1 = c <;> by_cases e2 : r0 = r ∧ c2 = c
    · exact hne (e1.2.trans e2.2.symm)
    · rw [setCell_same' e1, setCell_other _ _ _ _ _ _ e2] at heq
      exact VR c2 hc2 (e1.1 ▸ heq.symm)
    · rw [setCell_other _ _ _ _ _ _ e1, setCell_same' e2] at heq
      exact VR c1 hc1 (e2.1 ▸ heq)
    · rw [setCell_other _ _ _ _ _ _ e1, setCell_other _ _ _ _ _ _ e2] at heq
      rw [setCell_other _ _ _ _ _ _ e1] at hnz
      exact A r0 hr0 c1 hc1 c2 hc2 hne hnz heq
  · intro c0 hc0 r1 hr1 r2 hr2 hne hnz heq
    by_cases e1 : r1 = r ∧ c0 = c <;> by_cases e2 : r2 = r ∧ c0 = c
    · exact hne (e1.1.trans e2.1.symm)
    · rw [setCell_same' e1, setCell_other _ _ _ _ _ _ e2] at heq
      exact VC r2 hr2 (e1.2 ▸ heq.symm)
    · rw [setCell_other _ _ _ _ _ _ e1, setCell_same' e2] at heq
      exact VC r1 hr1 (e2.2 ▸ heq)
    · rw [setCell_other _ _ _ _ _ _ e1, setCell_other _ _ _ _ _ _ e2] at heq
      rw [setCell_other _ _ _ _ _ _ e1] at hnz
      exact B c0 hc0 r1 hr1 r2 hr2 hne hnz heq
  · intro r1 hr1 c1 hc1 r2 hr2 c2 hc2 hne hbr hbc hnz heq
    by_cases e1 : r1 = r ∧ c1 = c <;> by_cases e2 : r2 = r ∧ c2 = c
    · exact hne (by rw [e1.1, e1.2, e2.1, e2.2])
    · rw [setCell_same' e1, setCell_other _ _ _ _ _ _ e2] at heq
      refine VB r2 c2 ?_ ?_ ?_ ?_ heq.symm <;> omega
    · rw [setCell_other _ _ _ _ _ _ e1, setCell_same' e2] at heq
      refine VB r1 c1 ?_ ?_ ?_ ?_ heq <;> omega
    · rw [setCell_other _ _ _ _ _ _ e1, setCell_other _ _ _ _ _ _ e2] at heq
      rw [setCell_other _ _ _ _ _ _ e1] at hnz
      exact C r1 hr1 c1 hc1 r2 hr2 c2 hc2 hne hbr hbc hnz heq

theorem tryDigits_valid (solveF : Nat → Board → Bool × Board × Nat)
    (hS : ∀ k b, (solveF k b).1 = false → (solveF k b).2.1 = b)
    (hV : ∀ k b, validGrid b → (solveF k b).1 = true → validGrid (solveF k b).2.1)
    (r c : Nat) (b : Board) (h0 : b r c = 0) (hr : r < 9) (hc : c < 9)
    (hval : validGrid b) :
    ∀ ns k, (tryDigits solveF r c ns k b).1 = true →
      validGrid (tryDigits solveF r c ns k b).2.1 := by
  intro ns
  induction ns with
  | nil => intro k h; cases h
  | cons n rest ih =>
    intro k
    by_cases hv : is_valid b r c n = true
    · simp only [tryDigits, hv, if_true]
      by_cases hres : (solveF k (setCell b r c n)).1 = true
      · simp only [hres, if_true]
        intro _
        have hn : n ≠ 0 := is_valid_nonzero b r c n h0 hc hv
        exact hV _ _ (validGrid_setCell b r c n hval hv h0 hn hr hc) hres
      · have hres' : (solveF k (setCell b r c n)).1 = false := by
          simpa using hres
        have hrw : setCell (solveF k (setCell b r c n)).2.1 r c 0 = b := by
          rw [hS _ _ hres']
          exact setCell_undo b r c n h0
        simp only [hres', if_false, Bool.false_eq_true, hrw]
        exact ih _
    · have hv' : is_valid b r c n = false := by simpa using hv
      simp only [tryDigits, hv', if_false, Bool.false_eq_true]
      exact ih _

theorem solveAux_valid (orders : Nat → List Nat) :
    ∀ fuel k b, validGrid b → (solveAux orders fuel k b).1 = true →
      validGrid (solveAux orders fuel k b).2.1 := by
  intro fuel
  induction fuel with
  | zero => intro k b _ h; cases h
  | succ fuel ih =>
    intro k b hval
    match hfe : find_empty b with
    | none =>
      intro _
      simpa [solveAux, hfe] using hval
    | some (r, c) =>
      obtain ⟨h0, hr, hc⟩ := find_empty_some b r c hfe
      simp only [solveAux, hfe]
      exact tryDigits_valid _ (solveAux_restore orders fuel)
        (fun k b => ih k b) r c b h0 hr hc hval (orders k) (k + 1)

/-! ### Counting empty cells, for the fuel bound -/

theorem zeroCount_le (b : Board) : zeroCount b ≤ 81 := by
  have h := Finset.card_filter_le (Finset.range 9 ×ˢ Finset.range 9)
    (fun p => b p.1 p.2 = 0)
  simpa [Finset.card_product] using h

theorem zeroCount_setCell_lt (b : Board) (r c n : Nat) (h0 : b r c = 0) (hn : n ≠ 0)
    (hr : r < 9) (hc : c < 9) : zeroCount (setCell b r c n) < zeroCount b := by
  unfold zeroCount
  have hmem : (r, c) ∈ (Finset.range 9 ×ˢ Finset.range 9).filter (fun p => b p.1 p.2 = 0) := by
    simp [Finset.mem_filter, Finset.mem_product, Finset.mem_range, hr, hc, h0]
  have hsub : (Finset.range 9 ×ˢ Finset.range 9).filter (fun p => setCell b r c n p.1 p.2 = 0)
      = ((Finset.range 9 ×ˢ Finset.range 9).filter (fun p => b p.1 p.2 = 0)).erase (r, c) := by
    ext p
    simp only [Finset.mem_filter, Finset.mem_erase, Finset.mem_product, Finset.mem_range]
    constructor
    · rintro ⟨hp, hz⟩
      by_cases e : p.1 = r ∧ p.2 = c
      · rw [setCell_same' e] at hz
        exact absurd hz hn
      · rw [setCell_other _ _ _ _ _ _ e] at hz
        refine ⟨?_, hp, hz⟩
        intro hpe
        exact e (by rw [hpe]; exact ⟨rfl, rfl⟩)
    · rintro ⟨hne, hp, hz⟩
      have e : ¬(p.1 = r ∧ p.2 = c) := by
        rintro ⟨e1, e2⟩
        exact hne (Prod.ext e1 e2)
      rw [setCell_other _ _ _ _ _ _ e]
      exact ⟨hp, hz⟩
  rw [hsub, Finset.card_erase_of_mem hmem]
  exact Nat.sub_lt (Finset.card_pos.mpr ⟨_, hmem⟩) Nat.one_pos

/-! ### Completeness of the backtracking search -/

theorem solveAux_complete (orders : Nat → List Nat)
    (hcov : ∀ k d, 1 ≤ d → d ≤ 9 → d ∈ orders k)
    (full : Board) (hfull : completeGrid full)
    (hle : ∀ r, r < 9 → ∀ c, c < 9 → full r c ≤ 9) (hval : validGrid full) :
    ∀ fuel b k, zeroCount b < fuel → boardExtends b full →
      (solveAux orders fuel k b).1 = true := by
  intro fuel
  induction fuel with
  | zero => intro b k h _; omega
  | succ fuel ih =>
    intro b k hfuel hext
    match hfe : find_empty b with
    | none => simp [solveAux, hfe]
    | some (r, c) =>
      obtain ⟨h0, hr, hc⟩ := find_empty_some b r c hfe
      simp only [solveAux, hfe]
      have hd1 : 1 ≤ full r c := Nat.one_le_iff_ne_zero.mpr (hfull r hr c hc)
      have hd9 : full r c ≤ 9 := hle r hr c hc
      have hvd : is_valid b r c (full r c) = true := by
        rw [is_valid_iff]
        refine ⟨?_, ?_, ?_⟩
        · intro x hx heq
          have hnz : b r x ≠ 0 := by omega
          have hfx : full r x = full r c := by rw [hext r hr x hx hnz, heq]
          have hxc : c ≠ x := by
            intro he
            rw [← he] at heq
            omega
          exact hval.1 r hr c hc x hx hxc (by omega) hfx.symm
        · intro x hx heq
          have hnz : b x c ≠ 0 := by omega
          have hfx : full x c = full r c := by rw [hext x hx c hc hnz, heq]
          have hxr : r ≠ x := by
            intro he
            rw [← he] at heq
            omega
          exact hval.2.1 c hc r hr x hx hxr (by omega) hfx.symm
        · intro x y hx1 hx2 hy1 hy2 heq
          have hx9 : x < 9 := by omega
          have hy9 : y < 9 := by omega
          have hnz : b x y ≠ 0 := by omega
          have hfx : full x y = full r c := by rw [hext x hx9 y hy9 hnz, heq]
          have hne : (r, c) ≠ (x, y) := by
            intro he
            rw [Prod.mk.injEq] at he
            rw [← he.1, ← he.2] at heq
            omega
          exact hval.2.2 r hr c hc x hx9 y hy9 hne (by omega) (by omega) (by omega) hfx.symm
      have inner : ∀ ns k', full r c ∈ ns →
          (tryDigits (solveAux orders fuel) r c ns k' b).1 = true := by
        intro ns
        induction ns with
        | nil => intro k' h; cases h
        | cons n rest ihn =>
          intro k' hmem
          by_cases hv : is_valid b r c n = true
          · simp only [tryDigits, hv, if_true]
            by_cases hres : (solveAux orders fuel k' (setCell b r c n)).1 = true
            · simp [hres]
            · have hres' : (solveAux orders fuel k' (setCell b r c n)).1 = false := by
                simpa using hres
              have hnd : n ≠ full r c := by
                intro he
                apply hres
                apply ih
                · have := zeroCount_setCell_lt b r c n h0 (by omega) hr hc
                  omega
                · intro r' hr' c' hc' hnz
                  by_cases e : r' = r ∧ c' = c
                  · rw [setCell_same' e, e.1, e.2, he]
                  · rw [setCell_other _ _ _ _ _ _ e] at hnz
                    rw [setCell_other _ _ _ _ _ _ e]
                    exact hext r' hr' c' hc' hnz
              have hrw : setCell (solveAux orders fuel k' (setCell b r c n)).2.1 r c 0 = b := by
                rw [solveAux_restore orders fuel _ _ hres']
                exact setCell_undo b r c n h0
              simp only [hres', if_false, Bool.false_eq_true, hrw]
              apply ihn
              rcases List.mem_cons.mp hmem with h | h
              · exact absurd h.symm hnd
              · exact h
          · have hnd : n ≠ full r c := by
              intro he
              rw [he] at hv
              exact hv hvd
            have hv' : is_valid b r c n = false := by simpa using hv
            simp only [tryDigits, hv', if_false, Bool.false_eq_true]
            apply ihn
            rcases List.mem_cons.mp hmem with h | h
            · exact absurd h.symm hnd
            · exact h
      exact inner (orders k) (k + 1) (hcov k (full r c) hd1 hd9)


/-! ### Helper facts about the top-level solvers -/

theorem solveAux_of_find_none (orders : Nat → List Nat) (fuel k : Nat) (b : Board)
    (h : find_empty b = none) : solveAux orders (fuel + 1) k b = (true, b, k) := by
  simp [solveAux, h]

theorem solve_backtrack_of_complete (b : Board) (h : completeGrid b) :
    solve_backtrack b = (true, b) := by
  have hfe : find_empty b = none := (find_empty_eq_none_iff b).mpr h
  have h82 : solveAux (fun _ => ascList) 82 0 b = (true, b, 0) :=
    solveAux_of_find_none (fun _ => ascList) 81 0 b hfe
  unfold solve_backtrack solve_backtrackR
  rw [h82]

/-! ### Claim C1 -/

/-- C1 as frozen is false on the code: `solve_backtrack` never re-validates
already-filled cells, so on the all-ones board (complete, but with every row,
column, and box invalid) it returns `True` while the resulting board is not
valid. -/
theorem C1_counterexample :
    (solve_backtrack allOnes).1 = true ∧ ¬ validGrid (solve_backtrack allOnes).2 := by
  constructor
  · decide
  · decide

/-- C1 (amended with the extra hypothesis the counterexample forces): for every
valid 9x9 board, if `solve_backtrack(board)` returns true, then on return the
board is complete, valid, and every cell that was nonzero before the call
holds its original value. -/
theorem C1_solve_sound (b : Board) (hval : validGrid b)
    (htrue : (solve_backtrack b).1 = true) :
    completeGrid (solve_backtrack b).2 ∧ validGrid (solve_backtrack b).2 ∧
      (∀ r c, b r c ≠ 0 → (solve_backtrack b).2 r c = b r c) := by
  refine ⟨?_, ?_, ?_⟩
  · exact (find_empty_eq_none_iff _).mp
      (solveAux_filled (fun _ => ascList) 82 0 b htrue)
  · exact solveAux_valid (fun _ => ascList) 82 0 b hval htrue
  · intro r c hnz
    exact solveAux_keep (fun _ => ascList) 82 0 b r c hnz

/-- Witness for C1: the classic solved grid is valid, the solver accepts it,
and the amended conclusions hold there. -/
theorem C1_solve_sound_witness :
    validGrid classicFull ∧ (solve_backtrack classicFull).1 = true ∧
      completeGrid (solve_backtrack classicFull).2 :=
  ⟨by decide, by decide, (C1_solve_sound classicFull (by decide) (by decide)).1⟩

/-! ### Claim C2 -/

/-- C2: whenever the backtracking solver returns false, the board on return is
exactly the input board — a failing search undoes all tentative placements.
Quantifying over the candidate-order stream covers both the ascending variant
(`solver.py`, the constant `[1..9]` stream backing `solve_backtrack`) and the
shuffled variant (`data_gen.py`). -/
theorem C2_fail_no_side_effects (orders : Nat → List Nat) (b : Board)
    (h : (solve_backtrackR orders b).1 = false) : (solve_backtrackR orders b).2 = b :=
  solveAux_restore orders 82 0 b h

/-- Witness for C2: the blocked puzzle makes the ascending solver fail, and the
board comes back unchanged. -/
theorem C2_fail_no_side_effects_witness :
    (solve_backtrackR (fun _ => ascList) bpBlocked).1 = false ∧
      (solve_backtrackR (fun _ => ascList) bpBlocked).2 = bpBlocked :=
  ⟨by decide, C2_fail_no_side_effects (fun _ => ascList) bpBlocked (by decide)⟩

/-! ### Claim C3 -/

/-- C3 describes a clue-consistency pre-check that the code does not perform:
`solve_backtrack` is entered directly with no validation, and on a complete
board whose row 0 holds the clue 5 twice it returns `True` (reporting the
puzzle as solved) instead of any distinct "invalid input" result. -/
theorem C3_no_input_validation :
    dupRowBoard 0 0 = 5 ∧ dupRowBoard 0 1 = 5 ∧ ¬ validGrid dupRowBoard ∧
      (solve_backtrack dupRowBoard).1 = true ∧ (solve_backtrack dupRowBoard).2 = dupRowBoard :=
  ⟨by decide, by decide, by decide, by decide,
    congrArg Prod.snd (solve_backtrack_of_complete dupRowBoard (by decide))⟩

/-! ### Claim C6 -/

/-- C6: `generate_full_board()` cannot fail — for every candidate ordering the
shuffle may produce (any stream of permutations of `[1..9]`), the solver
started on the all-zero grid returns true, and the returned grid is complete
and valid. -/
theorem C6_generate_full_board (orders : Nat → List Nat)
    (hperm : ∀ k, (orders k).Perm ascList) :
    (solve_backtrackR orders zeroBoard).1 = true ∧
      completeGrid (generate_full_board orders) ∧ validGrid (generate_full_board orders) := by
  have hcov : ∀ k d, 1 ≤ d → d ≤ 9 → d ∈ orders k := by
    intro k d h1 h9
    rw [(hperm k).mem_iff]
    simp only [ascList, List.mem_cons, List.not_mem_nil, or_false]
    omega
  have hzc : zeroCount zeroBoard < 82 := lt_of_le_of_lt (zeroCount_le zeroBoard) (by omega)
  have hext : boardExtends zeroBoard classicFull := by
    intro r _ c _ hnz
    exact absurd rfl hnz
  have htrue : (solveAux orders 82 0 zeroBoard).1 = true :=
    solveAux_complete orders hcov classicFull (by decide) (by decide) (by decide)
      82 zeroBoard 0 hzc hext
  refine ⟨htrue, ?_, ?_⟩
  · exact (find_empty_eq_none_iff _).mp (solveAux_filled orders 82 0 zeroBoard htrue)
  · exact solveAux_valid orders 82 0 zeroBoard (by decide) htrue

/-- Witness for C6 at the constant ascending stream (a permutation stream). -/
theorem C6_generate_full_board_witness :
    (∀ k : Nat, ((fun _ => ascList) k : List Nat).Perm ascList) ∧
      (solve_backtrackR (fun _ => ascList) zeroBoard).1 = true ∧
      completeGrid (generate_full_board (fun _ => ascList)) ∧
      validGrid (generate_full_board (fun _ => ascList)) :=
  ⟨fun _ => List.Perm.refl _, C6_generate_full_board (fun _ => ascList) (fun _ => List.Perm.refl _)⟩

/-! ### Claim C10 -/

/-- C10: on a board with no zero cell, `solve_backtrack` returns true at once
and leaves the board unchanged; no hypothesis about validity is needed, since
already-filled cells are never re-validated by the solver. -/
theorem C10_filled_board_accepted (b : Board) (h : completeGrid b) :
    solve_backtrack b = (true, b) :=
  solve_backtrack_of_complete b h

/-- Witness for C10: the all-ones board is complete and invalid, and the
solver still reports it solved without touching it. -/
theorem C10_filled_board_accepted_witness :
    completeGrid allOnes ∧ ¬ validGrid allOnes ∧ solve_backtrack allOnes = (true, allOnes) :=
  ⟨by decide, by decide, C10_filled_board_accepted allOnes (by decide)⟩

/-! ### Claim C7: `remove_cells` -/

theorem nonzeroCount_setCell_zero (b : Board) (r c : Nat) (hr : r < 9) (hc : c < 9)
    (hnz : b r c ≠ 0) : nonzeroCount (setCell b r c 0) = nonzeroCount b - 1 := by
  unfold nonzeroCount
  have hmem : (r, c) ∈ (Finset.range 9 ×ˢ Finset.range 9).filter (fun p => b p.1 p.2 ≠ 0) := by
    simp [Finset.mem_filter, Finset.mem_product, Finset.mem_range, hr, hc, hnz]
  have hsub : (Finset.range 9 ×ˢ Finset.range 9).filter (fun p => setCell b r c 0 p.1 p.2 ≠ 0)
      = ((Finset.range 9 ×ˢ Finset.range 9).filter (fun p => b p.1 p.2 ≠ 0)).erase (r, c) := by
    ext p
    simp only [Finset.mem_filter, Finset.mem_erase, Finset.mem_product, Finset.mem_range]
    constructor
    · rintro ⟨hp, hz⟩
      by_cases e : p.1 = r ∧ p.2 = c
      · rw [setCell_same' e] at hz
        exact absurd rfl hz
      · rw [setCell_other _ _ _ _ _ _ e] at hz
        refine ⟨?_, hp, hz⟩
        intro hpe
        exact e (by rw [hpe]; exact ⟨rfl, rfl⟩)
    · rintro ⟨hne, hp, hz⟩
      have e : ¬(p.1 = r ∧ p.2 = c) := by
        rintro ⟨e1, e2⟩
        exact hne (Prod.ext e1 e2)
      rw [setCell_other _ _ _ _ _ _ e]
      exact ⟨hp, hz⟩
  rw [hsub, Finset.card_erase_of_mem hmem]

theorem removeAux_agree (k : Nat) :
    ∀ ps cnt (p : Board) r c,
      removeAux k ps cnt p r c = p r c ∨ removeAux k ps cnt p r c = 0 := by
  intro ps
  induction ps with
  | nil => intro cnt p r c; exact Or.inl rfl
  | cons q rest ih =>
    intro cnt p r c
    obtain ⟨a, d⟩ := q
    unfold removeAux
    by_cases hk : k ≤ cnt
    · rw [if_pos hk]
      exact Or.inl rfl
    · rw [if_neg hk]
      by_cases hz : p a d ≠ 0
      · rw [if_pos hz]
        rcases ih (cnt + 1) (setCell p a d 0) r c with h | h
        · by_cases e : r = a ∧ c = d
          · rw [setCell_same' e] at h
            exact Or.inr h
          · rw [setCell_other _ _ _ _ _ _ e] at h
            exact Or.inl h
        · exact Or.inr h
      · rw [if_neg hz]
        exact ih cnt p r c

theorem removeAux_count (k : Nat) :
    ∀ ps cnt (p : Board), ps.Nodup →
      (∀ q ∈ ps, q.1 < 9 ∧ q.2 < 9 ∧ p q.1 q.2 ≠ 0) → cnt ≤ k →
      nonzeroCount (removeAux k ps cnt p) = nonzeroCount p - min (k - cnt) ps.length := by
  intro ps
  induction ps with
  | nil =>
    intro cnt p _ _ _
    simp [removeAux]
  | cons q rest ih =>
    intro cnt p hnd hall hck
    obtain ⟨a, d⟩ := q
    obtain ⟨ha, hd, hnz⟩ := hall (a, d) (List.mem_cons_self _ _)
    unfold removeAux
    by_cases hk : k ≤ cnt
    · rw [if_pos hk]
      have : k - cnt = 0 := by omega
      simp [this]
    · have hz : p a d ≠ 0 := hnz
      rw [if_neg hk, if_pos hz]
      have hnd' : rest.Nodup := hnd.of_cons
      have hmemq : (a, d) ∉ rest := by
        intro hmem
        exact (List.nodup_cons.mp hnd).1 hmem
      have hall' : ∀ q ∈ rest, q.1 < 9 ∧ q.2 < 9 ∧ setCell p a d 0 q.1 q.2 ≠ 0 := by
        intro q hq
        obtain ⟨h1, h2, h3⟩ := hall q (List.mem_cons_of_mem _ hq)
        refine ⟨h1, h2, ?_⟩
        have e : ¬(q.1 = a ∧ q.2 = d) := by
          rintro ⟨e1, e2⟩
          refine hmemq ?_
          rw [← e1, ← e2]
          simpa using hq
        rw [setCell_other _ _ _ _ _ _ e]
        exact h3
      rw [ih (cnt + 1) (setCell p a d 0) hnd' hall' (by omega)]
      rw [nonzeroCount_setCell_zero p a d ha hd hz]
      have hpos : 1 ≤ nonzeroCount p := by
        unfold nonzeroCount
        refine Finset.card_pos.mpr ⟨(a, d), ?_⟩
        simp [Finset.mem_filter, Finset.mem_product, Finset.mem_range, ha, hd, hz]
      simp only [List.length_cons]
      omega

/-- C7: for every board and every `k`, `remove_cells(board, k)` run on any
permutation of the 81 coordinates (i) only ever turns cells to zero, so its
nonzero cells agree with the input board, (ii) clears exactly `min(k, 81)`
cells when the input board is complete, and (iii) is extended by the input
board on all its remaining nonzero cells — so a valid `board` is a valid
completion of the produced puzzle. -/
theorem C7_remove_cells (board : Board) (k : Nat) (positions : List (Nat × Nat))
    (hperm : positions.Perm allPos) :
    (∀ r c, remove_cells board k positions r c = board r c ∨
      remove_cells board k positions r c = 0) ∧
    (completeGrid board →
      nonzeroCount (remove_cells board k positions) = nonzeroCount board - min k 81) ∧
    boardExtends (remove_cells board k positions) board := by
  refine ⟨fun r c => removeAux_agree k positions 0 board r c, ?_, ?_⟩
  · intro hcomp
    have hnd : positions.Nodup := hperm.nodup_iff.mpr (by decide)
    have hall : ∀ q ∈ positions, q.1 < 9 ∧ q.2 < 9 ∧ board q.1 q.2 ≠ 0 := by
      intro q hq
      have hq9 := (mem_allPos q).mp (hperm.mem_iff.mp hq)
      exact ⟨hq9.1, hq9.2, hcomp q.1 hq9.1 q.2 hq9.2⟩
    have hlen : positions.length = 81 := by
      rw [hperm.length_eq]
      decide
    have := removeAux_count k positions 0 board hnd hall (Nat.zero_le k)
    rw [hlen] at this
    simpa using this
  · intro r hr c hc hnz
    rcases removeAux_agree k positions 0 board r c with h | h
    · exact h.symm
    · exact absurd h hnz

/-- Witness for C7 at the identity coordinate permutation and `k = 2` on the
classic solved grid. -/
theorem C7_remove_cells_witness :
    allPos.Perm allPos ∧ completeGrid classicFull ∧
      nonzeroCount (remove_cells classicFull 2 allPos) = nonzeroCount classicFull - min 2 81 :=
  ⟨List.Perm.refl _, by decide,
    (C7_remove_cells classicFull 2 allPos (List.Perm.refl _)).2.1 (by decide)⟩

/-! ### Claim C8: token round trip -/

theorem getD_map_range (n : Nat) (f : Nat → Nat) (i : Nat) (hi : i < n) :
    ((List.range n).map f).getD i 0 = f i := by
  rw [List.getD_eq_getElem?_getD, List.getElem?_map, List.getElem?_range hi]
  rfl

theorem board_to_tokens_eq_map (b : Board) :
    board_to_tokens b = (List.range 81).map (fun i => b (i / 9) (i % 9)) := rfl

theorem board_to_tokens_getD (b : Board) (r c : Nat) (hr : r < 9) (hc : c < 9) :
    (board_to_tokens b).getD (r * 9 + c) 0 = b r c := by
  rw [board_to_tokens_eq_map, getD_map_range 81 _ _ (by omega)]
  have h1 : (r * 9 + c) / 9 = r := by omega
  have h2 : (r * 9 + c) % 9 = c := by omega
  rw [h1, h2]

/-- C8: unflattening the row-major flattening of any 9x9 grid reproduces the
grid exactly (`tokens_to_board` is a left inverse of `board_to_tokens` on the
9x9 cell range). -/
theorem C8_round_trip (b : Board) (r c : Nat) (hr : r < 9) (hc : c < 9) :
    tokens_to_board (board_to_tokens b) r c = b r c := by
  unfold tokens_to_board
  rw [if_pos ⟨hr, hc⟩]
  exact board_to_tokens_getD b r c hr hc

/-- Witness for C8 on the classic grid at cell (0,0). -/
theorem C8_round_trip_witness :
    (0 : Nat) < 9 ∧ tokens_to_board (board_to_tokens classicFull) 0 0 = classicFull 0 0 :=
  ⟨by decide, C8_round_trip classicFull 0 0 (by decide) (by decide)⟩

/-! ### Selection and mask lemmas for the decoder -/

theorem scoreLt_none (x : Option ℚ) : scoreLt x none = false := by
  cases x <;> rfl

theorem argmaxFirst_spec (f : Nat → Option ℚ) :
    argmaxFirst f = 0 ∨ (f (argmaxFirst f) ≠ none ∧ argmaxFirst f ≤ 9) := by
  have key : ∀ (l : List Nat) (b0 : Nat), (∀ x ∈ l, x ≤ 9) →
      (b0 = 0 ∨ (f b0 ≠ none ∧ b0 ≤ 9)) →
      (l.foldl (fun best d => if scoreLt (f best) (f d) then d else best) b0 = 0 ∨
        (f (l.foldl (fun best d => if scoreLt (f best) (f d) then d else best) b0) ≠ none ∧
          l.foldl (fun best d => if scoreLt (f best) (f d) then d else best) b0 ≤ 9)) := by
    intro l
    induction l with
    | nil => intro b0 _ hb; exact hb
    | cons x rest ih =>
      intro b0 hmem hb
      simp only [List.foldl_cons]
      apply ih
      · intro y hy
        exact hmem y (List.mem_cons_of_mem _ hy)
      · by_cases hlt : scoreLt (f b0) (f x) = true
        · rw [if_pos hlt]
          refine Or.inr ⟨?_, hmem x (List.mem_cons_self _ _)⟩
          intro hnone
          rw [hnone, scoreLt_none] at hlt
          cases hlt
        · rw [if_neg hlt]
          exact hb
  have h := key (List.range 10) 0 (fun x hx => by
    have := List.mem_range.mp hx
    omega) (Or.inl rfl)
  exact h

theorem selectToken_spec (scores : Nat → ℚ) (mask : Nat → Bool) :
    selectToken scores mask = 0 ∨
      (mask (selectToken scores mask) = true ∧ selectToken scores mask ≤ 9) := by
  rcases argmaxFirst_spec (fun d => if mask d then some (scores d) else none) with h | ⟨h1, h2⟩
  · exact Or.inl h
  · refine Or.inr ⟨?_, h2⟩
    by_cases hm : mask (selectToken scores mask) = true
    · exact hm
    · exfalso
      apply h1
      unfold selectToken at hm
      exact if_neg hm

theorem selectToken_empty_mask (scores : Nat → ℚ) (mask : Nat → Bool)
    (h : ∀ d, d < 10 → mask d = false) : selectToken scores mask = 0 := by
  have key : ∀ (l : List Nat) (f : Nat → Option ℚ) (b0 : Nat),
      (∀ x ∈ l, f x = none) →
      l.foldl (fun best d => if scoreLt (f best) (f d) then d else best) b0 = b0 := by
    intro l
    induction l with
    | nil => intro f b0 _; rfl
    | cons x rest ih =>
      intro f b0 hmem
      simp only [List.foldl_cons]
      rw [hmem x (List.mem_cons_self _ _), scoreLt_none, if_neg (by simp)]
      exact ih f b0 (fun y hy => hmem y (List.mem_cons_of_mem _ hy))
  unfold selectToken argmaxFirst
  apply key
  intro x hx
  rw [h x (List.mem_range.mp hx)]
  rfl

theorem allowed_digits_zero_given (gRow gCol gBox pRow pCol pBox : Nat → Nat → Bool)
    (r c d : Nat)
    (h : allowed_digits_for_cell gRow gCol gBox pRow pCol pBox r c 0 d = true) :
    1 ≤ d ∧ d ≤ 9 ∧ gRow r d = false ∧ pRow r d = false ∧
      gCol c d = false ∧ pCol c d = false ∧
      gBox (r / 3 * 3 + c / 3) d = false ∧ pBox (r / 3 * 3 + c / 3) d = false := by
  unfold allowed_digits_for_cell at h
  rw [if_neg (by omega : ¬ 0 < 0)] at h
  simp only [Bool.and_eq_true, Bool.not_eq_true', Bool.or_eq_false_iff,
    decide_eq_true_iff] at h
  obtain ⟨h1, h9, ⟨⟨⟨⟨⟨hgr, hpr⟩, hgc⟩, hpc⟩, hgb⟩, hpb⟩⟩ := h
  exact ⟨h1, h9, hgr, hpr, hgc, hpc, hgb, hpb⟩

/-! ### Decode-step component lemmas -/

theorem decodeStep_out (ls : LogitSource) (src : List Nat) (t : Nat) (s : DecState) (i : Nat) :
    (decodeStep ls src t s).out i = if i = t then decodeSel ls src t s else s.out i := rfl

theorem decodeStep_predRow (ls : LogitSource) (src : List Nat) (t : Nat) (s : DecState)
    (r' d : Nat) :
    (decodeStep ls src t s).predRow r' d =
      if 0 < decodeSel ls src t s ∧ r' = t / 9 ∧ d = decodeSel ls src t s then true
      else s.predRow r' d := rfl

theorem decodeStep_predCol (ls : LogitSource) (src : List Nat) (t : Nat) (s : DecState)
    (c' d : Nat) :
    (decodeStep ls src t s).predCol c' d =
      if 0 < decodeSel ls src t s ∧ c' = t % 9 ∧ d = decodeSel ls src t s then true
      else s.predCol c' d := rfl

theorem decodeStep_predBox (ls : LogitSource) (src : List Nat) (t : Nat) (s : DecState)
    (b' d : Nat) :
    (decodeStep ls src t s).predBox b' d =
      if 0 < decodeSel ls src t s ∧ b' = t / 9 / 3 * 3 + t % 9 / 3 ∧ d = decodeSel ls src t s
      then true else s.predBox b' d := rfl

theorem decodeStep_ys (ls : LogitSource) (src : List Nat) (t : Nat) (s : DecState) :
    (decodeStep ls src t s).ys = s.ys ++ [decodeSel ls src t s] := rfl

theorem decodeSel_cases (ls : LogitSource) (src : List Nat) (t : Nat) (s : DecState) :
    decodeSel ls src t s = 0 ∨
      (allowed_digits_for_cell (givens_row src) (givens_col src) (givens_box src)
        s.predRow s.predCol s.predBox (t / 9) (t % 9) (gv src (t / 9) (t % 9))
        (decodeSel ls src t s) = true ∧ decodeSel ls src t s ≤ 9) :=
  selectToken_spec _ _

/-! ### Decode-loop invariants -/

theorem decodeSteps_succ (ls : LogitSource) (src : List Nat) (t : Nat) :
    decodeSteps ls src (t + 1) = decodeStep ls src t (decodeSteps ls src t) := rfl

theorem decodeSteps_out_future (ls : LogitSource) (src : List Nat) :
    ∀ t i, t ≤ i → (decodeSteps ls src t).out i = 0 := by
  intro t
  induction t with
  | zero => intro i _; rfl
  | succ t ih =>
    intro i hi
    rw [decodeSteps_succ, decodeStep_out, if_neg (by omega)]
    exact ih i (by omega)

theorem decodeSteps_out_stable (ls : LogitSource) (src : List Nat) :
    ∀ t t' i, i < t → t ≤ t' →
      (decodeSteps ls src t').out i = (decodeSteps ls src t).out i := by
  intro t t'
  induction t' with
  | zero =>
    intro i hi ht
    have : t = 0 := by omega
    rw [this]
  | succ t' ih =>
    intro i hi ht
    by_cases he : t = t' + 1
    · rw [he]
    · have ht' : t ≤ t' := by omega
      rw [decodeSteps_succ, decodeStep_out, if_neg (by omega)]
      exact ih i hi ht'

theorem decodeSteps_ys (ls : LogitSource) (src : List Nat) :
    ∀ t, (decodeSteps ls src t).ys =
      0 :: (List.range t).map (decodeSteps ls src t).out := by
  intro t
  induction t with
  | zero => rfl
  | succ t ih =>
    rw [decodeSteps_succ, decodeStep_ys, ih, List.range_succ, List.map_append]
    have h1 : (List.range t).map (decodeSteps ls src t).out
        = (List.range t).map (decodeStep ls src t (decodeSteps ls src t)).out := by
      refine List.map_congr_left (fun i hi => ?_)
      have hit : i < t := List.mem_range.mp hi
      rw [decodeStep_out, if_neg (by omega)]
    rw [← h1]
    simp [decodeStep_out]

theorem decodeSteps_predRow_iff (ls : LogitSource) (src : List Nat) :
    ∀ t r d, (decodeSteps ls src t).predRow r d = true ↔
      ∃ i, i < t ∧ i / 9 = r ∧ (decodeSteps ls src t).out i = d ∧ 0 < d := by
  intro t
  induction t with
  | zero =>
    intro r d
    constructor
    · intro h; cases h
    · rintro ⟨i, hi, _⟩; omega
  | succ t ih =>
    intro r d
    rw [decodeSteps_succ, decodeStep_predRow]
    by_cases hcond : 0 < decodeSel ls src t (decodeSteps ls src t) ∧ r = t / 9 ∧
        d = decodeSel ls src t (decodeSteps ls src t)
    · rw [if_pos hcond]
      constructor
      · intro _
        refine ⟨t, by omega, hcond.2.1.symm, ?_, ?_⟩
        · rw [decodeStep_out, if_pos rfl]
          exact hcond.2.2.symm
        · rw [hcond.2.2]
          exact hcond.1
      · intro _; rfl
    · rw [if_neg hcond]
      constructor
      · intro h
        obtain ⟨i, hi, hrow, hout, hd⟩ := (ih r d).mp h
        refine ⟨i, by omega, hrow, ?_, hd⟩
        rw [decodeStep_out, if_neg (by omega)]
        exact hout
      · rintro ⟨i, hi, hrow, hout, hd⟩
        by_cases hit : i = t
        · exfalso
          apply hcond
          subst hit
          rw [decodeStep_out, if_pos rfl] at hout
          exact ⟨by omega, hrow.symm, hout.symm⟩
        · apply (ih r d).mpr
          refine ⟨i, by omega, hrow, ?_, hd⟩
          rw [decodeStep_out, if_neg hit] at hout
          exact hout

theorem decodeSteps_predCol_iff (ls : LogitSource) (src : List Nat) :
    ∀ t c d, (decodeSteps ls src t).predCol c d = true ↔
      ∃ i, i < t ∧ i % 9 = c ∧ (decodeSteps ls src t).out i = d ∧ 0 < d := by
  intro t
  induction t with
  | zero =>
    intro c d
    constructor
    · intro h; cases h
    · rintro ⟨i, hi, _⟩; omega
  | succ t ih =>
    intro c d
    rw [decodeSteps_succ, decodeStep_predCol]
    by_cases hcond : 0 < decodeSel ls src t (decodeSteps ls src t) ∧ c = t % 9 ∧
        d = decodeSel ls src t (decodeSteps ls src t)
    · rw [if_pos hcond]
      constructor
      · intro _
        refine ⟨t, by omega, hcond.2.1.symm, ?_, ?_⟩
        · rw [decodeStep_out, if_pos rfl]
          exact hcond.2.2.symm
        · rw [hcond.2.2]
          exact hcond.1
      · intro _; rfl
    · rw [if_neg hcond]
      constructor
      · intro h
        obtain ⟨i, hi, hcol, hout, hd⟩ := (ih c d).mp h
        refine ⟨i, by omega, hcol, ?_, hd⟩
        rw [decodeStep_out, if_neg (by omega)]
        exact hout
      · rintro ⟨i, hi, hcol, hout, hd⟩
        by_cases hit : i = t
        · exfalso
          apply hcond
          subst hit
          rw [decodeStep_out, if_pos rfl] at hout
          exact ⟨by omega, hcol.symm, hout.symm⟩
        · apply (ih c d).mpr
          refine ⟨i, by omega, hcol, ?_, hd⟩
          rw [decodeStep_out, if_neg hit] at hout
          exact hout

theorem decodeSteps_predBox_iff (ls : LogitSource) (src : List Nat) :
    ∀ t bi d, (decodeSteps ls src t).predBox bi d = true ↔
      ∃ i, i < t ∧ i / 9 / 3 * 3 + i % 9 / 3 = bi ∧
        (decodeSteps ls src t).out i = d ∧ 0 < d := by
  intro t
  induction t with
  | zero =>
    intro bi d
    constructor
    · intro h; cases h
    · rintro ⟨i, hi, _⟩; omega
  | succ t ih =>
    intro bi d
    rw [decodeSteps_succ, decodeStep_predBox]
    by_cases hcond : 0 < decodeSel ls src t (decodeSteps ls src t) ∧
        bi = t / 9 / 3 * 3 + t % 9 / 3 ∧ d = decodeSel ls src t (decodeSteps ls src t)
    · rw [if_pos hcond]
      constructor
      · intro _
        refine ⟨t, by omega, hcond.2.1.symm, ?_, ?_⟩
        · rw [decodeStep_out, if_pos rfl]
          exact hcond.2.2.symm
        · rw [hcond.2.2]
          exact hcond.1
      · intro _; rfl
    · rw [if_neg hcond]
      constructor
      · intro h
        obtain ⟨i, hi, hbox, hout, hd⟩ := (ih bi d).mp h
        refine ⟨i, by omega, hbox, ?_, hd⟩
        rw [decodeStep_out, if_neg (by omega)]
        exact hout
      · rintro ⟨i, hi, hbox, hout, hd⟩
        by_cases hit : i = t
        · exfalso
          apply hcond
          subst hit
          rw [decodeStep_out, if_pos rfl] at hout
          exact ⟨by omega, hbox.symm, hout.symm⟩
        · apply (ih bi d).mpr
          refine ⟨i, by omega, hbox, ?_, hd⟩
          rw [decodeStep_out, if_neg hit] at hout
          exact hout

theorem decodeSteps_nonclue_avoids_givens (ls : LogitSource) (src : List Nat) :
    ∀ t i, i < t → gv src (i / 9) (i % 9) = 0 → 0 < (decodeSteps ls src t).out i →
      (decodeSteps ls src t).out i ≤ 9 ∧
      givens_row src (i / 9) ((decodeSteps ls src t).out i) = false ∧
      givens_col src (i % 9) ((decodeSteps ls src t).out i) = false ∧
      givens_box src (i / 9 / 3 * 3 + i % 9 / 3) ((decodeSteps ls src t).out i) = false := by
  intro t
  induction t with
  | zero => intro i hi; omega
  | succ t ih =>
    intro i hi hg hpos
    by_cases hit : i = t
    · subst hit
      rw [decodeSteps_succ, decodeStep_out, if_pos rfl] at hpos ⊢
      rcases decodeSel_cases ls src i (decodeSteps ls src i) with h0 | ⟨hmask, hle⟩
      · omega
      · rw [hg] at hmask
        obtain ⟨_, h9, hgr, _, hgc, _, hgb, _⟩ :=
          allowed_digits_zero_given _ _ _ _ _ _ _ _ _ hmask
        exact ⟨h9, hgr, hgc, hgb⟩
    · have hi' : i < t := by omega
      rw [decodeSteps_succ, decodeStep_out, if_neg hit] at hpos ⊢
      exact ih i hi' hg hpos

theorem decodeSteps_nonclue_distinct (ls : LogitSource) (src : List Nat) :
    ∀ t i j, i < t → j < t → i ≠ j →
      gv src (i / 9) (i % 9) = 0 → gv src (j / 9) (j % 9) = 0 →
      0 < (decodeSteps ls src t).out i → 0 < (decodeSteps ls src t).out j →
      (i / 9 = j / 9 ∨ i % 9 = j % 9 ∨
        i / 9 / 3 * 3 + i % 9 / 3 = j / 9 / 3 * 3 + j % 9 / 3) →
      (decodeSteps ls src t).out i ≠ (decodeSteps ls src t).out j := by
  intro t
  induction t with
  | zero => intro i j hi; omega
  | succ t ih =>
    have key : ∀ i, i < t →
        gv src (t / 9) (t % 9) = 0 → gv src (i / 9) (i % 9) = 0 →
        0 < (decodeSteps ls src (t + 1)).out t → 0 < (decodeSteps ls src (t + 1)).out i →
        (t / 9 = i / 9 ∨ t % 9 = i % 9 ∨
          t / 9 / 3 * 3 + t % 9 / 3 = i / 9 / 3 * 3 + i % 9 / 3) →
        (decodeSteps ls src (t + 1)).out t ≠ (decodeSteps ls src (t + 1)).out i := by
      intro i hi hgt hgi hpt hpi hsame heq
      rw [decodeSteps_succ] at hpt hpi heq
      rw [decodeStep_out, if_pos rfl] at hpt
      rw [decodeStep_out, if_neg (show ¬ i = t by omega)] at hpi
      rw [decodeStep_out, if_pos rfl] at heq
      rw [decodeStep_out, if_neg (show ¬ i = t by omega)] at heq
      rcases decodeSel_cases ls src t (decodeSteps ls src t) with h0 | ⟨hmask, _⟩
      · omega
      · rw [hgt] at hmask
        obtain ⟨_, _, _, hpr, _, hpc, _, hpb⟩ :=
          allowed_digits_zero_given _ _ _ _ _ _ _ _ _ hmask
        rcases hsame with hrow | hcol | hbox
        · have hT : (decodeSteps ls src t).predRow (t / 9)
              (decodeSel ls src t (decodeSteps ls src t)) = true := by
            apply (decodeSteps_predRow_iff ls src t _ _).mpr
            exact ⟨i, hi, hrow.symm, heq.symm, hpt⟩
          rw [hT] at hpr
          cases hpr
        · have hT : (decodeSteps ls src t).predCol (t % 9)
              (decodeSel ls src t (decodeSteps ls src t)) = true := by
            apply (decodeSteps_predCol_iff ls src t _ _).mpr
            exact ⟨i, hi, hcol.symm, heq.symm, hpt⟩
          rw [hT] at hpc
          cases hpc
        · have hT : (decodeSteps ls src t).predBox (t / 9 / 3 * 3 + t % 9 / 3)
              (decodeSel ls src t (decodeSteps ls src t)) = true := by
            apply (decodeSteps_predBox_iff ls src t _ _).mpr
            exact ⟨i, hi, hbox.symm, heq.symm, hpt⟩
          rw [hT] at hpb
          cases hpb
    intro i j hi hj hne hgi hgj hpi hpj hsame
    by_cases hit : i = t <;> by_cases hjt : j = t
    · omega
    · subst hit
      exact key j (by omega) hgi hgj hpi hpj hsame
    · subst hjt
      intro heq
      exact key i (by omega) hgj hgi hpj hpi
        (by rcases hsame with h | h | h
            · exact Or.inl h.symm
            · exact Or.inr (Or.inl h.symm)
            · exact Or.inr (Or.inr h.symm)) heq.symm
    · have hi' : i < t := by omega
      have hj' : j < t := by omega
      rw [decodeSteps_succ] at hpi hpj ⊢
      rw [decodeStep_out, if_neg (show ¬ i = t by omega)] at hpi
      rw [decodeStep_out, if_neg (show ¬ j = t by omega)] at hpj
      rw [decodeStep_out, if_neg (show ¬ i = t by omega)]
      rw [decodeStep_out, if_neg (show ¬ j = t by omega)]
      exact ih i j hi' hj' hne hgi hgj hpi hpj hsame

/-! ### The re-asserted decoded board is always valid for a valid puzzle -/

theorem givens_row_iff (src : List Nat) (r d : Nat) :
    givens_row src r d = true ↔ 0 < d ∧ ∃ c, c < 9 ∧ gv src r c = d := by
  simp [givens_row, List.any_eq_true, List.mem_range, beq_iff_eq]

theorem givens_col_iff (src : List Nat) (c d : Nat) :
    givens_col src c d = true ↔ 0 < d ∧ ∃ r, r < 9 ∧ gv src r c = d := by
  simp [givens_col, List.any_eq_true, List.mem_range, beq_iff_eq]

theorem givens_box_iff (src : List Nat) (bi d : Nat) :
    givens_box src bi d = true ↔ 0 < d ∧ ∃ r, r < 9 ∧ ∃ c, c < 9 ∧
      r / 3 * 3 + c / 3 = bi ∧ gv src r c = d := by
  simp [givens_box, List.any_eq_true, List.mem_range, beq_iff_eq]

theorem generate_eq_map (ls : LogitSource) (src : List Nat) :
    generate_with_constraints ls src = (List.range 81).map (decodeSteps ls src 81).out := by
  unfold generate_with_constraints
  rw [decodeSteps_ys ls src 81]
  rfl

theorem decoded_cell (ls : LogitSource) (src : List Nat) (r c : Nat) (hr : r < 9) (hc : c < 9) :
    tokens_to_board (generate_with_constraints ls src) r c
      = (decodeSteps ls src 81).out (r * 9 + c) := by
  unfold tokens_to_board
  rw [if_pos ⟨hr, hc⟩, generate_eq_map, getD_map_range 81 _ _ (by omega)]

theorem reassert_clue {bp pred : Board} {r c : Nat} (hr : r < 9) (hc : c < 9)
    (h : bp r c ≠ 0) : reassert bp pred r c = bp r c := by
  unfold reassert
  rw [if_pos ⟨hr, hc, h⟩]

theorem reassert_nonclue {bp pred : Board} {r c : Nat}
    (h : ¬(r < 9 ∧ c < 9 ∧ bp r c ≠ 0)) : reassert bp pred r c = pred r c := by
  unfold reassert
  rw [if_neg h]

theorem predict_pb2_valid (ls : LogitSource) (bp : Board) (hval : validGrid bp) :
    validGrid (reassert bp (tokens_to_board
      (generate_with_constraints ls (board_to_tokens bp)))) := by
  have hgv : ∀ r c, r < 9 → c < 9 → gv (board_to_tokens bp) r c = bp r c :=
    fun r c hr hc => board_to_tokens_getD bp r c hr hc
  have hclue : ∀ r c, r < 9 → c < 9 → bp r c ≠ 0 →
      reassert bp (tokens_to_board (generate_with_constraints ls (board_to_tokens bp))) r c
        = bp r c := fun r c hr hc h => reassert_clue hr hc h
  have hnon : ∀ r c, r < 9 → c < 9 → bp r c = 0 →
      reassert bp (tokens_to_board (generate_with_constraints ls (board_to_tokens bp))) r c
        = (decodeSteps ls (board_to_tokens bp) 81).out (r * 9 + c) := by
    intro r c hr hc h0
    rw [reassert_nonclue (fun hcon => hcon.2.2 h0)]
    exact decoded_cell ls (board_to_tokens bp) r c hr hc
  have main : ∀ r1 c1 r2 c2, r1 < 9 → c1 < 9 → r2 < 9 → c2 < 9 →
      (r1, c1) ≠ (r2, c2) →
      (r1 = r2 ∨ c1 = c2 ∨ (r1 / 3 = r2 / 3 ∧ c1 / 3 = c2 / 3)) →
      reassert bp (tokens_to_board (generate_with_constraints ls (board_to_tokens bp))) r1 c1
        ≠ 0 →
      reassert bp (tokens_to_board (generate_with_constraints ls (board_to_tokens bp))) r1 c1 ≠
        reassert bp (tokens_to_board (generate_with_constraints ls (board_to_tokens bp))) r2 c2
      := by
    intro r1 c1 r2 c2 hr1 hc1 hr2 hc2 hpair hsame hnz heq
    by_cases h1 : bp r1 c1 ≠ 0 <;> by_cases h2 : bp r2 c2 ≠ 0
    · rw [hclue r1 c1 hr1 hc1 h1] at hnz heq
      rw [hclue r2 c2 hr2 hc2 h2] at heq
      rcases hsame with hR | hC | hB
      · have hcc : c1 ≠ c2 := by
          intro hcc
          exact hpair (by rw [hR, hcc])
        rw [← hR] at heq
        exact hval.1 r1 hr1 c1 hc1 c2 hc2 hcc hnz heq
      · have hrr : r1 ≠ r2 := by
          intro hrr
          exact hpair (by rw [hrr, hC])
        rw [← hC] at heq
        exact hval.2.1 c1 hc1 r1 hr1 r2 hr2 hrr hnz heq
      · exact hval.2.2 r1 hr1 c1 hc1 r2 hr2 c2 hc2 hpair hB.1 hB.2 hnz heq
    · have h2' : bp r2 c2 = 0 := not_not.mp h2
      rw [hclue r1 c1 hr1 hc1 h1] at hnz heq
      rw [hnon r2 c2 hr2 hc2 h2'] at heq
      have hpos : 0 < (decodeSteps ls (board_to_tokens bp) 81).out (r2 * 9 + c2) := by
        omega
      have e1 : (r2 * 9 + c2) / 9 = r2 := by omega
      have e2 : (r2 * 9 + c2) % 9 = c2 := by omega
      have hgz : gv (board_to_tokens bp) ((r2 * 9 + c2) / 9) ((r2 * 9 + c2) % 9) = 0 := by
        rw [e1, e2, hgv r2 c2 hr2 hc2]
        exact h2'
      obtain ⟨h9, hgr, hgc, hgb⟩ := decodeSteps_nonclue_avoids_givens ls (board_to_tokens bp)
        81 (r2 * 9 + c2) (by omega) hgz hpos
      rw [e1] at hgr
      rw [e2] at hgc
      rcases hsame with hR | hC | hB
      · have hT : givens_row (board_to_tokens bp) r2
            ((decodeSteps ls (board_to_tokens bp) 81).out (r2 * 9 + c2)) = true := by
          apply (givens_row_iff _ _ _).mpr
          refine ⟨hpos, c1, hc1, ?_⟩
          rw [hgv r2 c1 hr2 hc1, show bp r2 c1 = bp r1 c1 from by rw [hR]]
          exact heq
        rw [hT] at hgr
        cases hgr
      · have hT : givens_col (board_to_tokens bp) c2
            ((decodeSteps ls (board_to_tokens bp) 81).out (r2 * 9 + c2)) = true := by
          apply (givens_col_iff _ _ _).mpr
          refine ⟨hpos, r1, hr1, ?_⟩
          rw [hgv r1 c2 hr1 hc2, show bp r1 c2 = bp r1 c1 from by rw [hC]]
          exact heq
        rw [hT] at hgc
        cases hgc
      · have ebox : (r2 * 9 + c2) / 9 / 3 * 3 + (r2 * 9 + c2) % 9 / 3
            = r2 / 3 * 3 + c2 / 3 := by omega
        rw [ebox] at hgb
        have hT : givens_box (board_to_tokens bp) (r2 / 3 * 3 + c2 / 3)
            ((decodeSteps ls (board_to_tokens bp) 81).out (r2 * 9 + c2)) = true := by
          apply (givens_box_iff _ _ _).mpr
          refine ⟨hpos, r1, hr1, c1, hc1, by omega, ?_⟩
          rw [hgv r1 c1 hr1 hc1]
          exact heq
        rw [hT] at hgb
        cases hgb
    · have h1' : bp r1 c1 = 0 := not_not.mp h1
      rw [hnon r1 c1 hr1 hc1 h1'] at hnz heq
      rw [hclue r2 c2 hr2 hc2 h2] at heq
      have hpos : 0 < (decodeSteps ls (board_to_tokens bp) 81).out (r1 * 9 + c1) := by
        omega
      have e1 : (r1 * 9 + c1) / 9 = r1 := by omega
      have e2 : (r1 * 9 + c1) % 9 = c1 := by omega
      have hgz : gv (board_to_tokens bp) ((r1 * 9 + c1) / 9) ((r1 * 9 + c1) % 9) = 0 := by
        rw [e1, e2, hgv r1 c1 hr1 hc1]
        exact h1'
      obtain ⟨h9, hgr, hgc, hgb⟩ := decodeSteps_nonclue_avoids_givens ls (board_to_tokens bp)
        81 (r1 * 9 + c1) (by omega) hgz hpos
      rw [e1] at hgr
      rw [e2] at hgc
      rcases hsame with hR | hC | hB
      · have hT : givens_row (board_to_tokens bp) r1
            ((decodeSteps ls (board_to_tokens bp) 81).out (r1 * 9 + c1)) = true := by
          apply (givens_row_iff _ _ _).mpr
          refine ⟨hpos, c2, hc2, ?_⟩
          rw [hgv r1 c2 hr1 hc2, show bp r1 c2 = bp r2 c2 from by rw [hR]]
          exact heq.symm
        rw [hT] at hgr
        cases hgr
      · have hT : givens_col (board_to_tokens bp) c1
            ((decodeSteps ls (board_to_tokens bp) 81).out (r1 * 9 + c1)) = true := by
          apply (givens_col_iff _ _ _).mpr
          refine ⟨hpos, r2, hr2, ?_⟩
          rw [hgv r2 c1 hr2 hc1, show bp r2 c1 = bp r2 c2 from by rw [hC]]
          exact heq.symm
        rw [hT] at hgc
        cases hgc
      · have ebox : (r1 * 9 + c1) / 9 / 3 * 3 + (r1 * 9 + c1) % 9 / 3
            = r1 / 3 * 3 + c1 / 3 := by omega
        rw [ebox] at hgb
        have hT : givens_box (board_to_tokens bp) (r1 / 3 * 3 + c1 / 3)
            ((decodeSteps ls (board_to_tokens bp) 81).out (r1 * 9 + c1)) = true := by
          apply (givens_box_iff _ _ _).mpr
          refine ⟨hpos, r2, hr2, c2, hc2, by omega, ?_⟩
          rw [hgv r2 c2 hr2 hc2]
          exact heq.symm
        rw [hT] at hgb
        cases hgb
    · have h1' : bp r1 c1 = 0 := not_not.mp h1
      have h2' : bp r2 c2 = 0 := not_not.mp h2
      rw [hnon r1 c1 hr1 hc1 h1'] at hnz heq
      rw [hnon r2 c2 hr2 hc2 h2'] at heq
      have hpos1 : 0 < (decodeSteps ls (board_to_tokens bp) 81).out (r1 * 9 + c1) := by
        omega
      have hpos2 : 0 < (decodeSteps ls (board_to_tokens bp) 81).out (r2 * 9 + c2) := by
        omega
      have hgz1 : gv (board_to_tokens bp) ((r1 * 9 + c1) / 9) ((r1 * 9 + c1) % 9) = 0 := by
        have e1 : (r1 * 9 + c1) / 9 = r1 := by omega
        have e2 : (r1 * 9 + c1) % 9 = c1 := by omega
        rw [e1, e2, hgv r1 c1 hr1 hc1]
        exact h1'
      have hgz2 : gv (board_to_tokens bp) ((r2 * 9 + c2) / 9) ((r2 * 9 + c2) % 9) = 0 := by
        have e1 : (r2 * 9 + c2) / 9 = r2 := by omega
        have e2 : (r2 * 9 + c2) % 9 = c2 := by omega
        rw [e1, e2, hgv r2 c2 hr2 hc2]
        exact h2'
      have hidx : r1 * 9 + c1 ≠ r2 * 9 + c2 := by
        intro he
        have hrr : r1 = r2 := by omega
        have hcc : c1 = c2 := by omega
        exact hpair (by rw [hrr, hcc])
      have hsame' : (r1 * 9 + c1) / 9 = (r2 * 9 + c2) / 9 ∨
          (r1 * 9 + c1) % 9 = (r2 * 9 + c2) % 9 ∨
          (r1 * 9 + c1) / 9 / 3 * 3 + (r1 * 9 + c1) % 9 / 3
            = (r2 * 9 + c2) / 9 / 3 * 3 + (r2 * 9 + c2) % 9 / 3 := by
        rcases hsame with hR | hC | hB
        · exact Or.inl (by omega)
        · exact Or.inr (Or.inl (by omega))
        · exact Or.inr (Or.inr (by omega))
      exact decodeSteps_nonclue_distinct ls (board_to_tokens bp) 81
        (r1 * 9 + c1) (r2 * 9 + c2) (by omega) (by omega) hidx hgz1 hgz2
        hpos1 hpos2 hsame' heq
  refine ⟨?_, ?_, ?_⟩
  · intro r hr c1 hc1 c2 hc2 hne hnz
    exact main r c1 r c2 hr hc1 hr hc2
      (fun hp => hne ((Prod.mk.injEq _ _ _ _).mp hp).2) (Or.inl rfl) hnz
  · intro c hc r1 hr1 r2 hr2 hne hnz
    exact main r1 c r2 c hr1 hc hr2 hc
      (fun hp => hne ((Prod.mk.injEq _ _ _ _).mp hp).1) (Or.inr (Or.inl rfl)) hnz
  · intro r1 hr1 c1 hc1 r2 hr2 c2 hc2 hne hbr hbc hnz
    exact main r1 c1 r2 c2 hr1 hc1 hr2 hc2 hne (Or.inr (Or.inr ⟨hbr, hbc⟩)) hnz

/-! ### Claim C4 -/

/-- C4 as frozen (quantifying over every puzzle) is false on the code: for the
all-ones puzzle every cell is a clue, the re-asserted board is complete, the
repair `solve_backtrack` succeeds immediately, and the final output still has
equal nonzero digits in row 0. -/
theorem C4_counterexample :
    (predictFull zls allOnes).1 = true ∧ ¬ validGrid (predict_with_model zls allOnes) := by
  constructor
  · decide
  · intro h
    have h1 : predict_with_model zls allOnes 0 0 = 1 := by decide
    have h2 : predict_with_model zls allOnes 0 1 = 1 := by decide
    have hne := h.1 0 (by omega) 0 (by omega) 1 (by omega) (by omega)
      (by rw [h1]; omega)
    rw [h1, h2] at hne
    exact hne rfl

/-- C4 (amended: the duplicate-free conclusion needs the puzzle itself to be
valid): for every puzzle and every logit source, each clue position of the
final output equals the puzzle's clue digit; and for a valid puzzle, whenever
the post-processing repair succeeds, no row, column, or box of the final
output contains the same nonzero digit twice. -/
theorem C4_decoder_output (ls : LogitSource) (bp : Board) :
    (∀ r c, r < 9 → c < 9 → bp r c ≠ 0 → predict_with_model ls bp r c = bp r c) ∧
    (validGrid bp → (predictFull ls bp).1 = true →
      validGrid (predict_with_model ls bp)) := by
  constructor
  · intro r c hr hc hnz
    have hpb2 : reassert bp (tokens_to_board (generate_with_constraints ls
        (board_to_tokens bp))) r c = bp r c := reassert_clue hr hc hnz
    have hkeep := solveAux_keep (fun _ => ascList) 82 0
      (reassert bp (tokens_to_board (generate_with_constraints ls (board_to_tokens bp))))
      r c (by rw [hpb2]; exact hnz)
    exact hkeep.trans hpb2
  · intro hval htrue
    exact solveAux_valid (fun _ => ascList) 82 0 _ (predict_pb2_valid ls bp hval) htrue

/-- Witness for C4 on the classic grid (a valid puzzle all of whose cells are
clues) with the constant-zero logit source. -/
theorem C4_decoder_output_witness :
    validGrid classicFull ∧ (predictFull zls classicFull).1 = true ∧
      predict_with_model zls classicFull 0 0 = classicFull 0 0 ∧
      validGrid (predict_with_model zls classicFull) :=
  ⟨by decide, by decide,
    (C4_decoder_output zls classicFull).1 0 0 (by decide) (by decide) (by decide),
    (C4_decoder_output zls classicFull).2 (by decide) (by decide)⟩

/-! ### Claim C5 -/

/-- C5 describes a "no completion found" report that the code does not
produce: `predict_with_model` drops the boolean returned by the repair
`solve_backtrack`.  On the blocked puzzle the repair fails (the exposed
boolean is false), yet the function returns the incomplete grid — its cell
(0,0) is still 0 — with no failure signal of any kind. -/
theorem C5_failed_repair_not_reported :
    (predictFull zls bpBlocked).1 = false ∧
      predict_with_model zls bpBlocked 0 0 = 0 ∧ bpBlocked 0 0 = 0 := by
  refine ⟨by decide, by decide, by decide⟩

/-! ### Claim C9 -/

/-- C9: when the allowed-digit mask at a decode position is empty (every score
is masked to `-inf`), the selection commits token 0 at that position, no other
position of the output board changes, and the loop proceeds to the next
position unconditionally. -/
theorem C9_empty_mask_commits_zero (ls : LogitSource) (src : List Nat) (t : Nat)
    (s : DecState)
    (h : ∀ d, d < 10 → allowed_digits_for_cell (givens_row src) (givens_col src)
      (givens_box src) s.predRow s.predCol s.predBox (t / 9) (t % 9)
      (gv src (t / 9) (t % 9)) d = false) :
    (decodeStep ls src t s).out t = 0 ∧
      (∀ i, i ≠ t → (decodeStep ls src t s).out i = s.out i) ∧
      decodeSteps ls src (t + 1) = decodeStep ls src t (decodeSteps ls src t) := by
  refine ⟨?_, ?_, rfl⟩
  · rw [decodeStep_out, if_pos rfl]
    exact selectToken_empty_mask _ _ h
  · intro i hi
    rw [decodeStep_out, if_neg hi]

/-- Witness for C9: at step 0 of the blocked puzzle the allowed set is empty
(digits 1..8 are in row 0, digit 9 in column 0) and the decoder commits 0. -/
theorem C9_empty_mask_commits_zero_witness :
    (∀ d, d < 10 → allowed_digits_for_cell (givens_row (board_to_tokens bpBlocked))
      (givens_col (board_to_tokens bpBlocked)) (givens_box (board_to_tokens bpBlocked))
      (decodeSteps zls (board_to_tokens bpBlocked) 0).predRow
      (decodeSteps zls (board_to_tokens bpBlocked) 0).predCol
      (decodeSteps zls (board_to_tokens bpBlocked) 0).predBox
      (0 / 9) (0 % 9) (gv (board_to_tokens bpBlocked) (0 / 9) (0 % 9)) d = false) ∧
    (decodeStep zls (board_to_tokens bpBlocked) 0
      (decodeSteps zls (board_to_tokens bpBlocked) 0)).out 0 = 0 :=
  ⟨by decide, (C9_empty_mask_commits_zero zls (board_to_tokens bpBlocked) 0
      (decodeSteps zls (board_to_tokens bpBlocked) 0) (by decide)).1⟩
